import Mathlib

/-!
Shallow embedding of the VisionIngest client-side batch orchestrator
(frontend `App.tsx`): the per-file job list (`ResultItem`), the three
scheduling policies (`handleNormalProcessing`, `handleBatchProcessing`,
`handleLowVramProcessing`), and the handlers `handleStart`, `handleStop`,
`handleRemoveResult`, `handleUpdateResult`.

Modelling conventions:
* Machine-level values are abstracted: a file is its name (`String`); an
  object URL produced by `URL.createObjectURL` is a fresh natural number
  allocated from a counter; a parsed JSON value is the opaque `JsonVal`.
* A network call's outcome is supplied by an environment `Env`; each call
  either resolves OK with a parsed JSON body whose expected fields may be
  absent (JavaScript property access on a missing key yields `undefined`,
  modelled as `none`), rejects with a non-OK HTTP status carrying an
  optional `detail` string, rejects with a non-abort exception, or rejects
  with an `AbortError` because `stop()` aborted the in-flight request.
* Cancellation: each `start()` creates a fresh `AbortController`; the code
  reads `signal.aborted` at the head of each loop and attaches the signal
  to every stage call (but not to `unload`). The run state threads the
  flag `aborted`; an `.aborted` call outcome corresponds to `stop()`
  firing while that call is in flight, which (synchronously, before the
  rejection handler runs) also applies `handleStop`'s reset of every
  `processing` job to `pending` (`applyStop`).
-/

/-- Status enum of a `ResultItem` (`'pending' | 'processing' | 'success' | 'error'`). -/
inductive Status
  | pending
  | processing
  | success
  | error
deriving DecidableEq

/-- Opaque stand-in for a structured JSON value (`object` in the source). -/
structure JsonVal where
  val : String
deriving DecidableEq

/-- The `ResultItem` interface of `App.tsx`. `fileUrl` holds the object-URL
handle as an allocation number. -/
structure ResultItem where
  filename : String
  status : Status
  rawMarkdown : Option String := none
  parsedJson : Option JsonVal := none
  error : Option String := none
  processingTime : Option Nat := none
  fileUrl : Option Nat := none
deriving DecidableEq

/-- Body of a `/api/ocr/process` OK response; both fields may be missing. -/
structure ProcessResp where
  raw_output : Option String := none
  parsed_data : Option JsonVal := none
deriving DecidableEq

/-- Body of a `/api/ocr/extract` OK response; the field may be missing. -/
structure ExtractResp where
  markdown : Option String := none
deriving DecidableEq

/-- Body of a `/api/llm/parse` OK response; the field may be missing. -/
structure ParseResp where
  parsed_data : Option JsonVal := none
deriving DecidableEq

/-- Outcome of one `fetch`: OK with a parsed body, non-OK HTTP status with
the body's optional `detail` (`none` also covers a falsy/empty detail),
a thrown non-abort error with message `msg`, or rejection with
`AbortError` because the signal was aborted mid-flight. -/
inductive FetchOutcome (α : Type)
  | ok (data : α)
  | httpError (detail : Option String)
  | netError (msg : String)
  | aborted
deriving DecidableEq

/-- Environment of one run: the outcome of each stage call, indexed by the
job it is issued for, and the wall-clock duration recorded on success.
The run parameters (model, template, context window, quality) only shape
the request payloads, never the control flow, so they are absorbed here. -/
structure Env where
  processResult : Nat → FetchOutcome ProcessResp
  extractResult : Nat → FetchOutcome ExtractResp
  parseResult : Nat → FetchOutcome ParseResp
  elapsed : Nat → Nat

/-- One stage-client invocation, for the run's call trace. -/
inductive CallEv
  | process (i : Nat)
  | extract (i : Nat)
  | parse (i : Nat)
  | unload
deriving DecidableEq

/-- State threaded through a run: the job list, the calls issued so far,
whether the run's abort signal has fired, and which job's call consumed
the abort (if any). -/
structure RunState where
  results : List ResultItem
  trace : List CallEv
  aborted : Bool
  abortedJob : Option Nat
deriving DecidableEq

/-- `prev.map((r, idx) => idx === i ? f(r) : r)` — the whole-list functional
update-at-index pattern used by every `setResults` call in the source. -/
def updAt (i : Nat) (f : ResultItem → ResultItem) : List ResultItem → List ResultItem
  | [] => []
  | r :: rs => if i = 0 then f r :: rs else r :: updAt (i - 1) f rs

/-- `handleStop`'s reset of the job list: every `processing` job becomes
`pending`, all other jobs are untouched. -/
def applyStop (rs : List ResultItem) : List ResultItem :=
  rs.map fun r => if r.status = .processing then { r with status := .pending } else r

/-- Net per-job effect of one iteration of `handleNormalProcessing` once the
call's outcome is known (the transient `processing` mark composed with the
resolution write). `.aborted` is handled by the interpreter, not here. -/
def resolveNormal (env : Env) (i : Nat) (r : ResultItem) : ResultItem :=
  match env.processResult i with
  | .ok d =>
      { r with status := .success, rawMarkdown := d.raw_output,
               parsedJson := d.parsed_data, processingTime := some (env.elapsed i) }
  | .httpError det => { r with status := .error, error := some (det.getD "Processing failed") }
  | .netError m => { r with status := .error, error := some m }
  | .aborted => r

/-- The Performance-policy loop of `handleNormalProcessing` over the listed
job indices. `handlerOn` keeps or drops the `AbortError` handler's write
(which re-sets the affected job to `pending` after `handleStop` already
reset it); the source has it on. -/
def runNormalAux (env : Env) (handlerOn : Bool) : List Nat → RunState → RunState
  | [], s => s
  | i :: rest, s =>
    if s.aborted then s else
    let s2 : RunState :=
      { s with results := updAt i (fun r => { r with status := .processing }) s.results,
               trace := s.trace ++ [CallEv.process i] }
    match env.processResult i with
    | .aborted =>
        let s3 : RunState :=
          { s2 with results := applyStop s2.results, aborted := true, abortedJob := some i }
        if handlerOn then
          { s3 with results := updAt i (fun r => { r with status := .pending }) s3.results }
        else s3
    | _ =>
        runNormalAux env handlerOn rest
          { s2 with results := updAt i (fun r => resolveNormal env i r) s2.results }

/-- `handleNormalProcessing(files, ...)`: one `combinedProcess` call per job,
in input order. -/
def handleNormalProcessing (env : Env) (n : Nat) (s : RunState) : RunState :=
  runNormalAux env true (List.range n) s

/-- Net per-job effect of a resolved Phase-1 (`extract`) iteration of
`handleBatchProcessing`. On OK the job returns to `pending` with
`rawMarkdown` set to the (possibly missing) `markdown` field. -/
def resolveBatchP1 (env : Env) (i : Nat) (r : ResultItem) : ResultItem :=
  match env.extractResult i with
  | .ok d => { r with status := .pending, rawMarkdown := d.markdown }
  | .httpError det => { r with status := .error, error := some (det.getD "OCR failed") }
  | .netError m => { r with status := .error, error := some m }
  | .aborted => r

/-- Phase 1 of the Batch policy: OCR every job, accumulating
`markdownResults` entries `(index, markdown)` for each OK `extract`
(the `markdown` field may be absent and is pushed as-is). -/
def runBatchP1 (env : Env) :
    List Nat → RunState → List (Nat × Option String) → RunState × List (Nat × Option String)
  | [], s, acc => (s, acc)
  | i :: rest, s, acc =>
    if s.aborted then (s, acc) else
    let s2 : RunState :=
      { s with results := updAt i (fun r => { r with status := .processing }) s.results,
               trace := s.trace ++ [CallEv.extract i] }
    match env.extractResult i with
    | .aborted =>
        ({ s2 with results := applyStop s2.results, aborted := true, abortedJob := some i }, acc)
    | .ok d =>
        runBatchP1 env rest
          { s2 with results := updAt i (fun r => resolveBatchP1 env i r) s2.results }
          (acc ++ [(i, d.markdown)])
    | _ =>
        runBatchP1 env rest
          { s2 with results := updAt i (fun r => resolveBatchP1 env i r) s2.results } acc

/-- Net per-job effect of a resolved Phase-3 (`parse`) iteration of
`handleBatchProcessing`. -/
def resolveBatchP3 (env : Env) (i : Nat) (r : ResultItem) : ResultItem :=
  match env.parseResult i with
  | .ok d =>
      { r with status := .success, parsedJson := d.parsed_data,
               processingTime := some (env.elapsed i) }
  | .httpError det => { r with status := .error, error := some (det.getD "Parse failed") }
  | .netError m => { r with status := .error, error := some m }
  | .aborted => r

/-- Phase 3 of the Batch policy: parse each stored markdown, in Phase-1
order, writing back to the originating job index. -/
def runBatchP3 (env : Env) : List (Nat × Option String) → RunState → RunState
  | [], s => s
  | (i, _) :: rest, s =>
    if s.aborted then s else
    let s2 : RunState :=
      { s with results := updAt i (fun r => { r with status := .processing }) s.results,
               trace := s.trace ++ [CallEv.parse i] }
    match env.parseResult i with
    | .aborted =>
        { s2 with results := applyStop s2.results, aborted := true, abortedJob := some i }
    | _ =>
        runBatchP3 env rest
          { s2 with results := updAt i (fun r => resolveBatchP3 env i r) s2.results }

/-- `handleBatchProcessing`: Phase 1 (extract all), then — unless the abort
signal fired during Phase 1 — one best-effort `unload`, then Phase 3
(parse every stored markdown). The `unload` request carries no abort
signal and its failure is swallowed, so only the invocation is recorded. -/
def handleBatchProcessing (env : Env) (n : Nat) (s : RunState) : RunState :=
  let p1 := runBatchP1 env (List.range n) s []
  if p1.1.aborted then p1.1
  else runBatchP3 env p1.2 { p1.1 with trace := p1.1.trace ++ [CallEv.unload] }

/-- Net per-job effect of a resolved `parse` step of
`handleLowVramProcessing` (identical writes to Batch Phase 3). -/
def resolveLowVramParse (env : Env) (i : Nat) (r : ResultItem) : ResultItem :=
  match env.parseResult i with
  | .ok d =>
      { r with status := .success, parsedJson := d.parsed_data,
               processingTime := some (env.elapsed i) }
  | .httpError det => { r with status := .error, error := some (det.getD "Parse failed") }
  | .netError m => { r with status := .error, error := some m }
  | .aborted => r

/-- The Low-VRAM loop: per job, `extract`; on OK store `rawMarkdown`
(status stays `processing`), invoke `unload` (no signal, failure
swallowed), then `parse`; on `extract` failure set Error and continue
with the next job; on an aborted call apply `handleStop`'s reset and
stop (the source's `AbortError` handlers here just `break`). -/
def runLowVramAux (env : Env) : List Nat → RunState → RunState
  | [], s => s
  | i :: rest, s =>
    if s.aborted then s else
    let s2 : RunState :=
      { s with results := updAt i (fun r => { r with status := .processing }) s.results,
               trace := s.trace ++ [CallEv.extract i] }
    match env.extractResult i with
    | .aborted =>
        { s2 with results := applyStop s2.results, aborted := true, abortedJob := some i }
    | .ok d =>
        let s3 : RunState :=
          { s2 with results := updAt i (fun r => { r with rawMarkdown := d.markdown }) s2.results,
                    trace := s2.trace ++ [CallEv.unload, CallEv.parse i] }
        match env.parseResult i with
        | .aborted =>
            { s3 with results := applyStop s3.results, aborted := true, abortedJob := some i }
        | _ =>
            runLowVramAux env rest
              { s3 with results := updAt i (fun r => resolveLowVramParse env i r) s3.results }
    | .httpError det =>
        let f := fun r => { r with status := Status.error, error := some (det.getD "OCR failed") }
        runLowVramAux env rest { s2 with results := updAt i f s2.results }
    | .netError m =>
        let f := fun r => { r with status := Status.error, error := some m }
        runLowVramAux env rest { s2 with results := updAt i f s2.results }

/-- `handleLowVramProcessing(files, ...)`. -/
def handleLowVramProcessing (env : Env) (n : Nat) (s : RunState) : RunState :=
  runLowVramAux env (List.range n) s

/-- The `initialResults` array built synchronously at the top of
`handleStart`: one `pending` job per file, in input order, each with a
freshly allocated object URL (`URL.createObjectURL(f)`), numbered from
`base` by the allocator. -/
def initialResults : List String → Nat → List ResultItem
  | [], _ => []
  | f :: fs, base =>
      { filename := f, status := .pending, fileUrl := some base } :: initialResults fs (base + 1)

/-- The three `ProcessingMode` values. -/
inductive ProcessingMode
  | performance
  | batch
  | lowvram
deriving DecidableEq

/-- Observable application state around the orchestrator: the job list, the
object-URL allocator counter, the URLs released so far via
`URL.revokeObjectURL`, and the `isProcessing` flag. -/
structure AppState where
  results : List ResultItem
  nextUrl : Nat
  released : List Nat
  isProcessing : Bool
deriving DecidableEq

/-- Fresh `RunState` for a run over `files`, jobs numbered from `base`. -/
def initRunState (files : List String) (base : Nat) : RunState :=
  { results := initialResults files base, trace := [], aborted := false, abortedJob := none }

/-- Dispatch of `handleStart`'s `switch (mode)`. -/
def runPolicy (env : Env) (mode : ProcessingMode) (n : Nat) (s : RunState) : RunState :=
  match mode with
  | .performance => handleNormalProcessing env n s
  | .batch => handleBatchProcessing env n s
  | .lowvram => handleLowVramProcessing env n s

/-- `handleStart`: issues a fresh abort controller, replaces the job list
with `initialResults` (allocating one object URL per file; the previous
jobs' URLs are not revoked anywhere in `handleStart`), runs the selected
policy, and clears `isProcessing`. Returns the final application state
and the run record. -/
def handleStart (env : Env) (mode : ProcessingMode) (files : List String) (st : AppState) :
    AppState × RunState :=
  let rs := runPolicy env mode files.length (initRunState files st.nextUrl)
  ({ st with results := rs.results, nextUrl := st.nextUrl + files.length,
             isProcessing := false }, rs)

/-- `handleStop` on the application state: abort the active controller
(modelled at the run level), reset every `processing` job to `pending`,
clear `isProcessing`. -/
def handleStop (st : AppState) : AppState :=
  { st with results := applyStop st.results, isProcessing := false }

/-- `handleRemoveResult(index)`: reads `prev[index].fileUrl` with no bounds
check — when `index` is out of range `prev[index]` is `undefined` and the
property read throws a `TypeError`, modelled as `none`. In range, it
revokes the job's object URL (when present) and deletes the slot
(`prev.filter((_, i) => i !== index)`). -/
def handleRemoveResult (index : Nat) (st : AppState) : Option AppState :=
  match st.results.get? index with
  | none => none
  | some r =>
      let released' := match r.fileUrl with
        | some u => u :: st.released
        | none => st.released
      some { st with results := st.results.eraseIdx index, released := released' }

/-- `handleUpdateResult(index, parsedJson)`: overwrites `parsedJson` of the
job at `index` (the mapper checks only `i === index`, not the status). -/
def handleUpdateResult (index : Nat) (parsedJson : JsonVal) (rs : List ResultItem) :
    List ResultItem :=
  updAt index (fun r => { r with parsedJson := some parsedJson }) rs

/-- No job in the list is `processing`. -/
def noProcessing (rs : List ResultItem) : Prop :=
  ∀ r ∈ rs, r.status ≠ .processing

/-! ### Basic lemmas about the list-update primitives -/

theorem length_updAt (i : Nat) (f : ResultItem → ResultItem) (rs : List ResultItem) :
    (updAt i f rs).length = rs.length := by
  induction rs generalizing i with
  | nil => rfl
  | cons r rs ih =>
      by_cases h : i = 0 <;> simp [updAt, h, ih]

theorem get?_updAt_self (i : Nat) (f : ResultItem → ResultItem) (rs : List ResultItem) :
    (updAt i f rs).get? i = (rs.get? i).map f := by
  induction rs generalizing i with
  | nil => rfl
  | cons r rs ih =>
      cases i with
      | zero => simp [updAt]
      | succ n => simpa [updAt] using ih n

theorem get?_updAt_ne (i j : Nat) (h : j ≠ i) (f : ResultItem → ResultItem)
    (rs : List ResultItem) : (updAt i f rs).get? j = rs.get? j := by
  induction rs generalizing i j with
  | nil => rfl
  | cons r rs ih =>
      cases i with
      | zero =>
          cases j with
          | zero => exact absurd rfl h
          | succ m => simp [updAt]
      | succ n =>
          cases j with
          | zero => simp [updAt]
          | succ m =>
              have hm : m ≠ n := by omega
              simpa [updAt] using ih n m hm

theorem updAt_updAt (i : Nat) (f g : ResultItem → ResultItem) (rs : List ResultItem) :
    updAt i f (updAt i g rs) = updAt i (fun r => f (g r)) rs := by
  induction rs generalizing i with
  | nil => rfl
  | cons r rs ih =>
      by_cases h : i = 0 <;> simp [updAt, h, ih]

theorem updAt_eq_self (i : Nat) (f : ResultItem → ResultItem) (rs : List ResultItem)
    (h : ∀ r, rs.get? i = some r → f r = r) : updAt i f rs = rs := by
  induction rs generalizing i with
  | nil => rfl
  | cons r rs ih =>
      cases i with
      | zero => simp [updAt, h r rfl]
      | succ n =>
          simp only [updAt, Nat.succ_ne_zero, if_false, Nat.succ_sub_one]
          exact congrArg _ (ih n (by simpa using h))

/-- The per-job function applied by `applyStop`. -/
def stopFix (r : ResultItem) : ResultItem :=
  if r.status = .processing then { r with status := .pending } else r

theorem applyStop_eq_map (rs : List ResultItem) : applyStop rs = rs.map stopFix := rfl

theorem get?_applyStop (rs : List ResultItem) (i : Nat) :
    (applyStop rs).get? i = (rs.get? i).map stopFix := by
  simp [applyStop_eq_map, List.get?_map]

theorem stopFix_status (r : ResultItem) : (stopFix r).status ≠ .processing := by
  unfold stopFix
  by_cases h : r.status = .processing <;> simp [h]

theorem noProcessing_applyStop (rs : List ResultItem) : noProcessing (applyStop rs) := by
  intro r hr
  rw [applyStop_eq_map] at hr
  rcases List.mem_map.mp hr with ⟨r0, _, rfl⟩
  exact stopFix_status r0

theorem noProcessing_updAt (i : Nat) (f : ResultItem → ResultItem) (rs : List ResultItem)
    (hrs : noProcessing rs) (hf : ∀ r, (f r).status ≠ .processing) :
    noProcessing (updAt i f rs) := by
  induction rs generalizing i with
  | nil => intro r hr; cases hr
  | cons r rs ih =>
      cases i with
      | zero =>
          intro x hx
          rcases List.mem_cons.mp (by simpa [updAt] using hx) with h | h
          · subst h; exact hf r
          · exact hrs x (List.mem_cons_of_mem _ h)
      | succ n =>
          intro x hx
          rcases List.mem_cons.mp (by simpa [updAt] using hx) with h | h
          · subst h; exact hrs x (List.mem_cons_self _ _)
          · exact ih n (fun y hy => hrs y (List.mem_cons_of_mem _ hy)) x h

/-! ### Iterated per-job resolution -/

/-- Left-to-right iteration of per-job updates, the resolved net effect of a
policy loop over the listed job indices. -/
def applyResolves (f : Nat → ResultItem → ResultItem) (l : List Nat)
    (rs : List ResultItem) : List ResultItem :=
  l.foldl (fun rs i => updAt i (f i) rs) rs

theorem applyResolves_nil (f : Nat → ResultItem → ResultItem) (rs : List ResultItem) :
    applyResolves f [] rs = rs := rfl

theorem applyResolves_cons (f : Nat → ResultItem → ResultItem) (i : Nat) (l : List Nat)
    (rs : List ResultItem) :
    applyResolves f (i :: l) rs = applyResolves f l (updAt i (f i) rs) := rfl

theorem get?_applyResolves_not_mem (f : Nat → ResultItem → ResultItem) (l : List Nat)
    (rs : List ResultItem) (j : Nat) (hj : j ∉ l) :
    (applyResolves f l rs).get? j = rs.get? j := by
  induction l generalizing rs with
  | nil => rfl
  | cons i l ih =>
      rw [applyResolves_cons, ih _ (fun h => hj (List.mem_cons_of_mem _ h)),
        get?_updAt_ne i j (fun h => hj (h ▸ List.mem_cons_self _ _))]

theorem get?_applyResolves_mem (f : Nat → ResultItem → ResultItem) (l : List Nat)
    (rs : List ResultItem) (j : Nat) (hnd : l.Nodup) (hj : j ∈ l) :
    (applyResolves f l rs).get? j = (rs.get? j).map (f j) := by
  induction l generalizing rs with
  | nil => cases hj
  | cons i l ih =>
      rcases List.mem_cons.mp hj with rfl | hj'
      · rw [applyResolves_cons,
          get?_applyResolves_not_mem f l _ j (List.Nodup.not_mem hnd),
          get?_updAt_self]
      · rw [applyResolves_cons, ih _ (List.Nodup.of_cons hnd) hj',
          get?_updAt_ne i j (fun h => (List.Nodup.not_mem hnd) (h ▸ hj'))]

theorem length_applyResolves (f : Nat → ResultItem → ResultItem) (l : List Nat)
    (rs : List ResultItem) : (applyResolves f l rs).length = rs.length := by
  induction l generalizing rs with
  | nil => rfl
  | cons i l ih => rw [applyResolves_cons, ih, length_updAt]

/-! ### Characterization of the Performance policy -/

/-- Marking a job `processing` before resolving it does not change the
resolved value, because every non-abort resolution overwrites `status`. -/
theorem resolveNormal_processing (env : Env) (i : Nat) (r : ResultItem)
    (h : env.processResult i ≠ .aborted) :
    resolveNormal env i { r with status := .processing } = resolveNormal env i r := by
  unfold resolveNormal
  cases henv : env.processResult i <;> simp_all

theorem runNormalAux_noAbort (env : Env) (hOn : Bool) (l : List Nat) (s : RunState)
    (hab : s.aborted = false) (h : ∀ i ∈ l, env.processResult i ≠ .aborted) :
    runNormalAux env hOn l s =
      { s with results := applyResolves (resolveNormal env) l s.results,
               trace := s.trace ++ l.map CallEv.process } := by
  induction l generalizing s with
  | nil => simp [runNormalAux, applyResolves_nil]
  | cons i l ih =>
      have hi : env.processResult i ≠ .aborted := h i (List.mem_cons_self _ _)
      rw [runNormalAux]
      simp only [hab, Bool.false_eq_true, if_false]
      have hfun : (fun r => resolveNormal env i { r with status := Status.processing }) =
          resolveNormal env i := funext fun r => resolveNormal_processing env i r hi
      cases henv : env.processResult i with
      | aborted => exact absurd henv hi
      | ok d =>
          rw [ih _ rfl (fun j hj => h j (List.mem_cons_of_mem _ hj))]
          simp only [updAt_updAt, hfun, applyResolves_cons]
          simp
      | httpError det =>
          rw [ih _ rfl (fun j hj => h j (List.mem_cons_of_mem _ hj))]
          simp only [updAt_updAt, hfun, applyResolves_cons]
          simp
      | netError m =>
          rw [ih _ rfl (fun j hj => h j (List.mem_cons_of_mem _ hj))]
          simp only [updAt_updAt, hfun, applyResolves_cons]
          simp

/-! ### Characterization of the Batch policy -/

/-- Whether job `i`'s `extract` resolves OK. -/
def isOkExtract (env : Env) (i : Nat) : Bool :=
  match env.extractResult i with
  | .ok _ => true
  | _ => false

/-- Whether job `i`'s `extract` rejects with `AbortError`. -/
def extractAborts (env : Env) (i : Nat) : Bool :=
  decide (env.extractResult i = .aborted)

/-- The `markdownResults` entry job `i` contributes in Phase 1, if any. -/
def mdEntry (env : Env) (i : Nat) : Option (Nat × Option String) :=
  match env.extractResult i with
  | .ok d => some (i, d.markdown)
  | _ => none

theorem resolveBatchP1_processing (env : Env) (i : Nat) (r : ResultItem)
    (h : env.extractResult i ≠ .aborted) :
    resolveBatchP1 env i { r with status := .processing } = resolveBatchP1 env i r := by
  unfold resolveBatchP1
  cases henv : env.extractResult i <;> simp_all

theorem runBatchP1_noAbort (env : Env) (l : List Nat) (s : RunState)
    (acc : List (Nat × Option String)) (hab : s.aborted = false)
    (h : ∀ i ∈ l, env.extractResult i ≠ .aborted) :
    runBatchP1 env l s acc =
      ({ s with results := applyResolves (resolveBatchP1 env) l s.results,
                trace := s.trace ++ l.map CallEv.extract },
       acc ++ l.filterMap (mdEntry env)) := by
  induction l generalizing s acc with
  | nil => simp [runBatchP1, applyResolves_nil]
  | cons i l ih =>
      have hi : env.extractResult i ≠ .aborted := h i (List.mem_cons_self _ _)
      rw [runBatchP1]
      simp only [hab, Bool.false_eq_true, if_false]
      have hfun : (fun r => resolveBatchP1 env i { r with status := Status.processing }) =
          resolveBatchP1 env i := funext fun r => resolveBatchP1_processing env i r hi
      cases henv : env.extractResult i with
      | aborted => exact absurd henv hi
      | ok d =>
          refine (ih _ _ rfl (fun j hj => h j (List.mem_cons_of_mem _ hj))).trans ?_
          simp only [updAt_updAt, hfun, applyResolves_cons]
          simp [mdEntry, henv]
      | httpError det =>
          refine (ih _ _ rfl (fun j hj => h j (List.mem_cons_of_mem _ hj))).trans ?_
          simp only [updAt_updAt, hfun, applyResolves_cons]
          simp [mdEntry, henv]
      | netError m =>
          refine (ih _ _ rfl (fun j hj => h j (List.mem_cons_of_mem _ hj))).trans ?_
          simp only [updAt_updAt, hfun, applyResolves_cons]
          simp [mdEntry, henv]

theorem resolveBatchP3_processing (env : Env) (i : Nat) (r : ResultItem)
    (h : env.parseResult i ≠ .aborted) :
    resolveBatchP3 env i { r with status := .processing } = resolveBatchP3 env i r := by
  unfold resolveBatchP3
  cases henv : env.parseResult i <;> simp_all

theorem runBatchP3_noAbort (env : Env) (md : List (Nat × Option String)) (s : RunState)
    (hab : s.aborted = false) (h : ∀ p ∈ md, env.parseResult p.1 ≠ .aborted) :
    runBatchP3 env md s =
      { s with results := applyResolves (resolveBatchP3 env) (md.map Prod.fst) s.results,
               trace := s.trace ++ md.map (fun p => CallEv.parse p.1) } := by
  induction md generalizing s with
  | nil => simp [runBatchP3, applyResolves_nil]
  | cons p md ih =>
      obtain ⟨i, m⟩ := p
      have hi : env.parseResult i ≠ .aborted := h (i, m) (List.mem_cons_self _ _)
      rw [runBatchP3]
      simp only [hab, Bool.false_eq_true, if_false]
      have hfun : (fun r => resolveBatchP3 env i { r with status := Status.processing }) =
          resolveBatchP3 env i := funext fun r => resolveBatchP3_processing env i r hi
      cases henv : env.parseResult i with
      | aborted => exact absurd henv hi
      | ok d =>
          refine (ih _ rfl (fun q hq => h q (List.mem_cons_of_mem _ hq))).trans ?_
          simp only [updAt_updAt, hfun]
          simp [applyResolves_cons]
      | httpError det =>
          refine (ih _ rfl (fun q hq => h q (List.mem_cons_of_mem _ hq))).trans ?_
          simp only [updAt_updAt, hfun]
          simp [applyResolves_cons]
      | netError m' =>
          refine (ih _ rfl (fun q hq => h q (List.mem_cons_of_mem _ hq))).trans ?_
          simp only [updAt_updAt, hfun]
          simp [applyResolves_cons]

/-! ### Trace shape under arbitrary outcomes (cancellation included) -/

/-- Number of occurrences of one call event in a trace. -/
def countEv (e : CallEv) : List CallEv → Nat
  | [] => 0
  | x :: xs => (if x = e then 1 else 0) + countEv e xs

theorem countEv_append (e : CallEv) (xs ys : List CallEv) :
    countEv e (xs ++ ys) = countEv e xs + countEv e ys := by
  induction xs with
  | nil => simp [countEv]
  | cons x xs ih => simp [countEv, ih]; omega

/-- Calls issued by Batch Phase 1 over the listed jobs: one `extract` per
job, stopping right after an aborted one. -/
def batchP1Trace (env : Env) : List Nat → List CallEv
  | [] => []
  | i :: l =>
    match env.extractResult i with
    | .aborted => [CallEv.extract i]
    | _ => CallEv.extract i :: batchP1Trace env l

/-- Calls issued by Batch Phase 3 over the stored markdown entries: one
`parse` per entry, stopping right after an aborted one. -/
def batchP3Trace (env : Env) : List (Nat × Option String) → List CallEv
  | [] => []
  | (i, _) :: md =>
    match env.parseResult i with
    | .aborted => [CallEv.parse i]
    | _ => CallEv.parse i :: batchP3Trace env md

theorem runBatchP1_trace (env : Env) (l : List Nat) (s : RunState)
    (acc : List (Nat × Option String)) (hab : s.aborted = false) :
    (runBatchP1 env l s acc).1.trace = s.trace ++ batchP1Trace env l := by
  induction l generalizing s acc with
  | nil => simp [runBatchP1, batchP1Trace]
  | cons i l ih =>
      rw [runBatchP1]
      simp only [hab, Bool.false_eq_true, if_false]
      cases henv : env.extractResult i with
      | aborted => simp [batchP1Trace, henv]
      | ok d => rw [ih _ _ rfl]; simp [batchP1Trace, henv]
      | httpError det => rw [ih _ _ rfl]; simp [batchP1Trace, henv]
      | netError m => rw [ih _ _ rfl]; simp [batchP1Trace, henv]

theorem runBatchP1_aborted (env : Env) (l : List Nat) (s : RunState)
    (acc : List (Nat × Option String)) (hab : s.aborted = false) :
    (runBatchP1 env l s acc).1.aborted = l.any (extractAborts env) := by
  induction l generalizing s acc with
  | nil => simp [runBatchP1, hab]
  | cons i l ih =>
      rw [runBatchP1]
      simp only [hab, Bool.false_eq_true, if_false]
      cases henv : env.extractResult i with
      | aborted => simp [extractAborts, henv]
      | ok d => rw [ih _ _ rfl]; simp [extractAborts, henv]
      | httpError det => rw [ih _ _ rfl]; simp [extractAborts, henv]
      | netError m => rw [ih _ _ rfl]; simp [extractAborts, henv]

theorem runBatchP3_trace (env : Env) (md : List (Nat × Option String)) (s : RunState)
    (hab : s.aborted = false) :
    (runBatchP3 env md s).trace = s.trace ++ batchP3Trace env md := by
  induction md generalizing s with
  | nil => simp [runBatchP3, batchP3Trace]
  | cons p md ih =>
      obtain ⟨i, m⟩ := p
      rw [runBatchP3]
      simp only [hab, Bool.false_eq_true, if_false]
      cases henv : env.parseResult i with
      | aborted => simp [batchP3Trace, henv]
      | ok d => rw [ih _ rfl]; simp [batchP3Trace, henv]
      | httpError det => rw [ih _ rfl]; simp [batchP3Trace, henv]
      | netError m' => rw [ih _ rfl]; simp [batchP3Trace, henv]

theorem countEv_unload_batchP1Trace (env : Env) (l : List Nat) :
    countEv CallEv.unload (batchP1Trace env l) = 0 := by
  induction l with
  | nil => rfl
  | cons i l ih =>
      rw [batchP1Trace]
      cases henv : env.extractResult i <;> simp [countEv, ih]

theorem countEv_unload_batchP3Trace (env : Env) (md : List (Nat × Option String)) :
    countEv CallEv.unload (batchP3Trace env md) = 0 := by
  induction md with
  | nil => rfl
  | cons p md ih =>
      obtain ⟨i, m⟩ := p
      rw [batchP3Trace]
      cases henv : env.parseResult i <;> simp [countEv, ih]

theorem parse_not_mem_batchP1Trace (env : Env) (l : List Nat) (j : Nat) :
    CallEv.parse j ∉ batchP1Trace env l := by
  induction l with
  | nil => simp [batchP1Trace]
  | cons i l ih =>
      rw [batchP1Trace]
      cases henv : env.extractResult i <;> simp [ih]

/-- Calls issued by the Low-VRAM loop over the listed jobs: `extract i`,
then — only when the `extract` resolved OK — `unload` and `parse i`,
before anything for the next job; the loop stops after an aborted call. -/
def lowVramTrace (env : Env) : List Nat → List CallEv
  | [] => []
  | i :: l =>
    match env.extractResult i with
    | .aborted => [CallEv.extract i]
    | .ok _ =>
        CallEv.extract i :: CallEv.unload :: CallEv.parse i ::
          (match env.parseResult i with
           | .aborted => []
           | _ => lowVramTrace env l)
    | _ => CallEv.extract i :: lowVramTrace env l

theorem runLowVramAux_trace (env : Env) (l : List Nat) (s : RunState)
    (hab : s.aborted = false) :
    (runLowVramAux env l s).trace = s.trace ++ lowVramTrace env l := by
  induction l generalizing s with
  | nil => simp [runLowVramAux, lowVramTrace]
  | cons i l ih =>
      rw [runLowVramAux]
      simp only [hab, Bool.false_eq_true, if_false]
      cases henv : env.extractResult i with
      | aborted => simp [lowVramTrace, henv]
      | ok d =>
          cases hp : env.parseResult i with
          | aborted => simp [lowVramTrace, henv, hp]
          | ok d' => rw [ih _ rfl]; simp [lowVramTrace, henv, hp]
          | httpError det => rw [ih _ rfl]; simp [lowVramTrace, henv, hp]
          | netError m => rw [ih _ rfl]; simp [lowVramTrace, henv, hp]
      | httpError det => rw [ih _ rfl]; simp [lowVramTrace, henv]
      | netError m => rw [ih _ rfl]; simp [lowVramTrace, henv]

theorem countEv_unload_lowVramTrace (env : Env) (l : List Nat)
    (h : ∀ i ∈ l, env.extractResult i ≠ .aborted ∧ env.parseResult i ≠ .aborted) :
    countEv CallEv.unload (lowVramTrace env l) = l.countP (isOkExtract env) := by
  induction l with
  | nil => rfl
  | cons i l ih =>
      have hi := h i (List.mem_cons_self _ _)
      have hrest := fun j hj => h j (List.mem_cons_of_mem _ hj)
      rw [lowVramTrace]
      cases henv : env.extractResult i with
      | aborted => exact absurd henv hi.1
      | ok d =>
          cases hp : env.parseResult i with
          | aborted => exact absurd hp hi.2
          | ok d' =>
              simp [countEv, ih hrest, List.countP_cons, isOkExtract, henv, hp, Nat.add_comm]
          | httpError det =>
              simp [countEv, ih hrest, List.countP_cons, isOkExtract, henv, hp, Nat.add_comm]
          | netError m =>
              simp [countEv, ih hrest, List.countP_cons, isOkExtract, henv, hp, Nat.add_comm]
      | httpError det => simp [countEv, ih hrest, List.countP_cons, isOkExtract, henv]
      | netError m => simp [countEv, ih hrest, List.countP_cons, isOkExtract, henv]

theorem parse_mem_lowVramTrace (env : Env) (l : List Nat) (j : Nat) (hj : j ∈ l)
    (h : ∀ i ∈ l, env.extractResult i ≠ .aborted ∧ env.parseResult i ≠ .aborted)
    (hok : isOkExtract env j = true) :
    CallEv.parse j ∈ lowVramTrace env l := by
  induction l with
  | nil => cases hj
  | cons i l ih =>
      have hi := h i (List.mem_cons_self _ _)
      have hrest := fun k hk => h k (List.mem_cons_of_mem _ hk)
      rw [lowVramTrace]
      rcases List.mem_cons.mp hj with rfl | hj'
      · cases henv : env.extractResult j with
        | aborted => exact absurd henv hi.1
        | ok d =>
            cases hp : env.parseResult j with
            | aborted => exact absurd hp hi.2
            | ok d' => simp
            | httpError det => simp
            | netError m => simp
        | httpError det => simp [isOkExtract, henv] at hok
        | netError m => simp [isOkExtract, henv] at hok
      · cases henv : env.extractResult i with
        | aborted => exact absurd henv hi.1
        | ok d =>
            cases hp : env.parseResult i with
            | aborted => exact absurd hp hi.2
            | ok d' => simp [ih hj' hrest]
            | httpError det => simp [ih hj' hrest]
            | netError m => simp [ih hj' hrest]
        | httpError det => simp [ih hj' hrest]
        | netError m => simp [ih hj' hrest]

/-! ### Cancellation invariants -/

theorem setStatus_pending_eq_self (r : ResultItem) (h : r.status = .pending) :
    { r with status := Status.pending } = r := by
  cases r
  simp_all

theorem noProcessing_initialResults (files : List String) (base : Nat) :
    noProcessing (initialResults files base) := by
  induction files generalizing base with
  | nil => intro r hr; cases hr
  | cons f fs ih =>
      intro r hr
      rcases List.mem_cons.mp hr with rfl | hr'
      · simp
      · exact ih (base + 1) r hr'

/-- The write performed by the Performance loop's `AbortError` handler is a
no-op: `handleStop` has already reset the affected job to `pending`, and
re-marking it `pending` changes nothing. -/
theorem runNormalAux_handler (env : Env) (l : List Nat) (s : RunState) :
    runNormalAux env true l s = runNormalAux env false l s := by
  induction l generalizing s with
  | nil => rfl
  | cons i l ih =>
      rw [runNormalAux, runNormalAux]
      by_cases hab : s.aborted
      · simp [hab]
      · simp only [hab, if_false, Bool.false_eq_true]
        cases henv : env.processResult i with
        | aborted =>
            have : updAt i (fun r => { r with status := Status.pending })
                (applyStop (updAt i (fun r => { r with status := Status.processing }) s.results)) =
                applyStop (updAt i (fun r => { r with status := Status.processing }) s.results) := by
              apply updAt_eq_self
              intro r hr
              rw [get?_applyStop, get?_updAt_self] at hr
              rcases hmem : s.results.get? i with _ | r0
              · rw [hmem] at hr; cases hr
              · rw [hmem] at hr
                simp at hr
                subst hr
                simp [stopFix]
            simp [this]
        | ok d => exact ih _
        | httpError det => exact ih _
        | netError m => exact ih _

theorem get?_applyStop_updAt_pending (rs : List ResultItem) (i : Nat) (r : ResultItem)
    (f : ResultItem → ResultItem) (hf : ∀ x, (f x).status = .processing)
    (hr : (applyStop (updAt i f rs)).get? i = some r) : r.status = .pending := by
  rw [get?_applyStop, get?_updAt_self] at hr
  rcases hmem : rs.get? i with _ | r0
  · rw [hmem] at hr; cases hr
  · rw [hmem] at hr
    simp at hr
    subst hr
    simp [stopFix, hf r0]

theorem get?_updAt_pend_pending (rs : List ResultItem) (i : Nat) (r : ResultItem)
    (hr : (updAt i (fun x => { x with status := Status.pending }) rs).get? i = some r) :
    r.status = .pending := by
  rw [get?_updAt_self] at hr
  rcases hmem : rs.get? i with _ | r0
  · rw [hmem] at hr; cases hr
  · rw [hmem] at hr
    simp at hr
    subst hr
    rfl

theorem runNormalAux_inv (env : Env) (hOn : Bool) (l : List Nat) (s : RunState)
    (hnp : noProcessing s.results) (hab : s.aborted = false) (haj : s.abortedJob = none) :
    noProcessing (runNormalAux env hOn l s).results ∧
    ∀ j r, (runNormalAux env hOn l s).abortedJob = some j →
      (runNormalAux env hOn l s).results.get? j = some r → r.status = .pending := by
  induction l generalizing s with
  | nil =>
      refine ⟨by simpa [runNormalAux] using hnp, fun j r hj _ => ?_⟩
      rw [runNormalAux] at hj
      rw [haj] at hj
      cases hj
  | cons i l ih =>
      rw [runNormalAux]
      simp only [hab, Bool.false_eq_true, if_false]
      cases henv : env.processResult i with
      | aborted =>
          cases hOn with
          | true =>
              constructor
              · exact noProcessing_updAt _ _ _ (noProcessing_applyStop _) (fun r => by simp)
              · intro j r hj hr
                simp only at hj
                cases hj
                exact get?_updAt_pend_pending _ _ _ hr
          | false =>
              constructor
              · exact noProcessing_applyStop _
              · intro j r hj hr
                simp only at hj
                cases hj
                exact get?_applyStop_updAt_pending _ _ _ _ (fun x => rfl) hr
      | ok d =>
          refine ih _ ?_ rfl haj
          rw [updAt_updAt]
          exact noProcessing_updAt _ _ _ hnp (fun r => by simp [resolveNormal, henv])
      | httpError det =>
          refine ih _ ?_ rfl haj
          rw [updAt_updAt]
          exact noProcessing_updAt _ _ _ hnp (fun r => by simp [resolveNormal, henv])
      | netError m =>
          refine ih _ ?_ rfl haj
          rw [updAt_updAt]
          exact noProcessing_updAt _ _ _ hnp (fun r => by simp [resolveNormal, henv])

theorem runBatchP1_inv (env : Env) (l : List Nat) (s : RunState)
    (acc : List (Nat × Option String))
    (hnp : noProcessing s.results) (hab : s.aborted = false) (haj : s.abortedJob = none) :
    noProcessing (runBatchP1 env l s acc).1.results ∧
    (∀ j r, (runBatchP1 env l s acc).1.abortedJob = some j →
      (runBatchP1 env l s acc).1.results.get? j = some r → r.status = .pending) ∧
    ((runBatchP1 env l s acc).1.aborted = false →
      (runBatchP1 env l s acc).1.abortedJob = none) := by
  induction l generalizing s acc with
  | nil =>
      rw [runBatchP1]
      refine ⟨hnp, ?_, fun _ => haj⟩
      intro j r hj _
      have hj2 : (none : Option Nat) = some j := haj ▸ hj
      cases hj2
  | cons i l ih =>
      rw [runBatchP1]
      simp only [hab, Bool.false_eq_true, if_false]
      cases henv : env.extractResult i with
      | aborted =>
          refine ⟨noProcessing_applyStop _, ?_, ?_⟩
          · intro j r hj hr
            simp only at hj
            cases hj
            exact get?_applyStop_updAt_pending _ _ _ _ (fun x => rfl) hr
          · intro hfalse
            simp at hfalse
      | ok d =>
          refine ih _ _ ?_ rfl haj
          rw [updAt_updAt]
          exact noProcessing_updAt _ _ _ hnp (fun r => by simp [resolveBatchP1, henv])
      | httpError det =>
          refine ih _ _ ?_ rfl haj
          rw [updAt_updAt]
          exact noProcessing_updAt _ _ _ hnp (fun r => by simp [resolveBatchP1, henv])
      | netError m =>
          refine ih _ _ ?_ rfl haj
          rw [updAt_updAt]
          exact noProcessing_updAt _ _ _ hnp (fun r => by simp [resolveBatchP1, henv])

theorem runBatchP3_inv (env : Env) (md : List (Nat × Option String)) (s : RunState)
    (hnp : noProcessing s.results) (hab : s.aborted = false) (haj : s.abortedJob = none) :
    noProcessing (runBatchP3 env md s).results ∧
    ∀ j r, (runBatchP3 env md s).abortedJob = some j →
      (runBatchP3 env md s).results.get? j = some r → r.status = .pending := by
  induction md generalizing s with
  | nil =>
      rw [runBatchP3]
      exact ⟨hnp, fun j r hj _ => by rw [haj] at hj; cases hj⟩
  | cons p md ih =>
      obtain ⟨i, m⟩ := p
      rw [runBatchP3]
      simp only [hab, Bool.false_eq_true, if_false]
      cases henv : env.parseResult i with
      | aborted =>
          refine ⟨noProcessing_applyStop _, ?_⟩
          intro j r hj hr
          simp only at hj
          cases hj
          exact get?_applyStop_updAt_pending _ _ _ _ (fun x => rfl) hr
      | ok d =>
          refine ih _ ?_ rfl haj
          rw [updAt_updAt]
          exact noProcessing_updAt _ _ _ hnp (fun r => by simp [resolveBatchP3, henv])
      | httpError det =>
          refine ih _ ?_ rfl haj
          rw [updAt_updAt]
          exact noProcessing_updAt _ _ _ hnp (fun r => by simp [resolveBatchP3, henv])
      | netError m' =>
          refine ih _ ?_ rfl haj
          rw [updAt_updAt]
          exact noProcessing_updAt _ _ _ hnp (fun r => by simp [resolveBatchP3, henv])

theorem runLowVramAux_inv (env : Env) (l : List Nat) (s : RunState)
    (hnp : noProcessing s.results) (hab : s.aborted = false) (haj : s.abortedJob = none) :
    noProcessing (runLowVramAux env l s).results ∧
    ∀ j r, (runLowVramAux env l s).abortedJob = some j →
      (runLowVramAux env l s).results.get? j = some r → r.status = .pending := by
  induction l generalizing s with
  | nil =>
      rw [runLowVramAux]
      exact ⟨hnp, fun j r hj _ => by rw [haj] at hj; cases hj⟩
  | cons i l ih =>
      rw [runLowVramAux]
      simp only [hab, Bool.false_eq_true, if_false]
      cases henv : env.extractResult i with
      | aborted =>
          refine ⟨noProcessing_applyStop _, ?_⟩
          intro j r hj hr
          simp only at hj
          cases hj
          exact get?_applyStop_updAt_pending _ _ _ _ (fun x => rfl) hr
      | ok d =>
          cases hp : env.parseResult i with
          | aborted =>
              refine ⟨noProcessing_applyStop _, ?_⟩
              intro j r hj hr
              have hj2 : some i = some j := hj
              cases hj2
              have hr2 : (applyStop (updAt i
                  (fun x => { x with rawMarkdown := d.markdown })
                  (updAt i (fun x => { x with status := Status.processing })
                    s.results))).get? i = some r := hr
              rw [updAt_updAt] at hr2
              exact get?_applyStop_updAt_pending _ _ _ _ (fun x => rfl) hr2
          | ok d' =>
              refine ih _ ?_ rfl haj
              rw [updAt_updAt, updAt_updAt]
              exact noProcessing_updAt _ _ _ hnp
                (fun r => by simp [resolveLowVramParse, hp])
          | httpError det =>
              refine ih _ ?_ rfl haj
              rw [updAt_updAt, updAt_updAt]
              exact noProcessing_updAt _ _ _ hnp
                (fun r => by simp [resolveLowVramParse, hp])
          | netError m =>
              refine ih _ ?_ rfl haj
              rw [updAt_updAt, updAt_updAt]
              exact noProcessing_updAt _ _ _ hnp
                (fun r => by simp [resolveLowVramParse, hp])
      | httpError det =>
          refine ih _ ?_ rfl haj
          rw [updAt_updAt]
          exact noProcessing_updAt _ _ _ hnp (fun r => by simp)
      | netError m =>
          refine ih _ ?_ rfl haj
          rw [updAt_updAt]
          exact noProcessing_updAt _ _ _ hnp (fun r => by simp)

/-! ### Initial job list and removal -/

theorem length_initialResults (files : List String) (base : Nat) :
    (initialResults files base).length = files.length := by
  induction files generalizing base with
  | nil => rfl
  | cons f fs ih => simp [initialResults, ih]

theorem get?_initialResults (files : List String) (base i : Nat) :
    (initialResults files base).get? i =
      (files.get? i).map
        (fun f => { filename := f, status := .pending, fileUrl := some (base + i) }) := by
  induction files generalizing base i with
  | nil => rfl
  | cons f fs ih =>
      cases i with
      | zero => simp [initialResults]
      | succ n =>
          have harith : base + 1 + n = base + (n + 1) := by omega
          simpa [initialResults, harith] using ih (base + 1) n

theorem get?_eraseIdx_lt {α : Type} (rs : List α) (i k : Nat) (hk : k < i) :
    (rs.eraseIdx i).get? k = rs.get? k := by
  induction rs generalizing i k with
  | nil => rfl
  | cons r rs ih =>
      cases i with
      | zero => omega
      | succ n =>
          cases k with
          | zero => simp [List.eraseIdx]
          | succ m => simpa [List.eraseIdx] using ih n m (by omega)

theorem get?_eraseIdx_ge {α : Type} (rs : List α) (i k : Nat) (hi : i < rs.length)
    (hk : i ≤ k) : (rs.eraseIdx i).get? k = rs.get? (k + 1) := by
  induction rs generalizing i k with
  | nil => simp at hi
  | cons r rs ih =>
      cases i with
      | zero => simp [List.eraseIdx]
      | succ n =>
          cases k with
          | zero => omega
          | succ m =>
              simpa [List.eraseIdx] using ih n m (by simpa using hi) (by omega)

theorem length_eraseIdx_add_one {α : Type} (rs : List α) (i : Nat) (hi : i < rs.length) :
    (rs.eraseIdx i).length + 1 = rs.length := by
  induction rs generalizing i with
  | nil => simp at hi
  | cons r rs ih =>
      cases i with
      | zero => simp [List.eraseIdx]
      | succ n => simpa [List.eraseIdx] using ih n (by simpa using hi)

/-! ### Phase-1 bookkeeping facts -/

theorem filterMap_mdEntry_fst (env : Env) (l : List Nat) :
    (l.filterMap (mdEntry env)).map Prod.fst = l.filter (isOkExtract env) := by
  induction l with
  | nil => rfl
  | cons i l ih =>
      cases henv : env.extractResult i <;>
        simp [mdEntry, isOkExtract, henv, List.filterMap_cons, List.filter_cons, ih]

theorem mem_fst_filterMap_mdEntry (env : Env) (l : List Nat) (j : Nat)
    (hj : j ∈ (l.filterMap (mdEntry env)).map Prod.fst) :
    j ∈ l ∧ isOkExtract env j = true := by
  rw [filterMap_mdEntry_fst] at hj
  exact ⟨List.mem_of_mem_filter hj, List.of_mem_filter hj⟩

/-- Combined Batch run under no cancellation: Phase 1 resolves every job,
`unload` is issued once, Phase 3 resolves exactly the OK-extract jobs. -/
theorem handleBatchProcessing_noAbort (env : Env) (files : List String) (base : Nat)
    (hne : ∀ i, i < files.length → env.extractResult i ≠ .aborted)
    (hnp : ∀ i, i < files.length → env.parseResult i ≠ .aborted) :
    handleBatchProcessing env files.length (initRunState files base) =
      { results := applyResolves (resolveBatchP3 env)
          ((List.range files.length).filter (isOkExtract env))
          (applyResolves (resolveBatchP1 env) (List.range files.length)
            (initialResults files base)),
        trace := (List.range files.length).map CallEv.extract ++ CallEv.unload ::
          ((List.range files.length).filter (isOkExtract env)).map CallEv.parse,
        aborted := false, abortedJob := none } := by
  unfold handleBatchProcessing
  rw [runBatchP1_noAbort env _ _ _ rfl
    (fun i hi => hne i (List.mem_range.mp hi))]
  simp only [Bool.false_eq_true, if_false]
  rw [runBatchP3_noAbort env _ _ rfl
    (fun p hp => hnp p.1 (List.mem_range.mp (mem_fst_filterMap_mdEntry env _ _
      (List.mem_map_of_mem Prod.fst (by simpa using hp))).1))]
  simp only [List.nil_append, initRunState]
  rw [filterMap_mdEntry_fst]
  have hmap : ((List.filterMap (mdEntry env) (List.range files.length)).map
      (fun p => CallEv.parse p.1)) =
      ((List.filterMap (mdEntry env) (List.range files.length)).map Prod.fst).map
        CallEv.parse := by
    simp [List.map_map, Function.comp]
  rw [hmap, filterMap_mdEntry_fst]
  simp

/-- Per-job outcome of a Performance run, under no cancellation: job `k`
ends at the resolution of its own `combinedProcess` call applied to its
initial state. -/
theorem handleNormal_noAbort_get? (env : Env) (files : List String) (base : Nat)
    (hna : ∀ i, i < files.length → env.processResult i ≠ .aborted)
    (k : Nat) (name : String) (hk : files.get? k = some name) :
    (handleNormalProcessing env files.length (initRunState files base)).results.get? k =
      some (resolveNormal env k
        { filename := name, status := .pending, fileUrl := some (base + k) }) := by
  have hklt : k < files.length := by
    by_contra h
    rw [List.get?_len_le (by omega)] at hk
    cases hk
  unfold handleNormalProcessing
  rw [runNormalAux_noAbort env true _ _ rfl
    (fun i hi => hna i (List.mem_range.mp hi))]
  simp only [initRunState]
  rw [get?_applyResolves_mem _ _ _ _ (List.nodup_range _) (List.mem_range.mpr hklt),
    get?_initialResults, hk]
  rfl

/-! ### Concrete runs used as counterexamples and witnesses -/

/-- Environment in which every stage call resolves OK with all fields set. -/
def envOkAll : Env :=
  { processResult := fun _ => .ok { raw_output := some "# md", parsed_data := some ⟨"data"⟩ },
    extractResult := fun _ => .ok { markdown := some "# md" },
    parseResult := fun _ => .ok { parsed_data := some ⟨"data"⟩ },
    elapsed := fun _ => 7 }

/-- Environment in which job 0's `combinedProcess` call resolves OK but its
body is missing both expected fields; every other call is fully OK. -/
def envMissingField : Env :=
  { envOkAll with
    processResult := fun i =>
      if i = 0 then .ok {} else .ok { raw_output := some "# md", parsed_data := some ⟨"data"⟩ } }

/-- Environment in which job 0's stage call rejects with `AbortError`
(`stop()` fired during the call); later calls would succeed. -/
def envAbort0 : Env :=
  { envOkAll with
    processResult := fun i =>
      if i = 0 then .aborted else .ok { raw_output := some "# md", parsed_data := some ⟨"data"⟩ },
    extractResult := fun i => if i = 0 then .aborted else .ok { markdown := some "# md" } }

/-- Application state holding one stale job from a previous run whose
preview URL 0 is still live (not yet released). -/
def staleApp : AppState :=
  { results := [{ filename := "old.png", status := .success, fileUrl := some 0 }],
    nextUrl := 1, released := [], isProcessing := false }

/-! ## Claim theorems -/

/-- C1 counterexample: the claim says `update(index, value)` is a no-op when
job `index` is Pending, but `handleUpdateResult` checks only `i === index`
and overwrites `parsedJson` of a Pending job too. -/
theorem c1_counterexample :
    handleUpdateResult 0 ⟨"v"⟩ [{ filename := "a.png", status := Status.pending }] ≠
      [{ filename := "a.png", status := Status.pending }] := by
  decide

/-- C1 (amended): `update(index, value)` overwrites `structuredData`
(`parsedJson`) of job `index` regardless of its status — Pending,
Processing, Error and Success alike — leaving every other job and every
other field unchanged (out-of-range indices are a no-op, as the mapper
matches nothing). -/
theorem c1_update_overwrites_any_status (index : Nat) (v : JsonVal) (rs : List ResultItem) :
    (handleUpdateResult index v rs).get? index =
      (rs.get? index).map (fun r => { r with parsedJson := some v }) ∧
    ∀ j, j ≠ index → (handleUpdateResult index v rs).get? j = rs.get? j := by
  exact ⟨get?_updAt_self index _ rs, fun j hj => get?_updAt_ne index j hj _ rs⟩

/-- C1 witness: the amended theorem applied to a concrete Pending job. -/
theorem c1_update_overwrites_any_status_witness :
    (handleUpdateResult 0 ⟨"v"⟩ [{ filename := "a.png", status := Status.pending }]).get? 1 =
      ([{ filename := "a.png", status := Status.pending }] : List ResultItem).get? 1 :=
  (c1_update_overwrites_any_status 0 ⟨"v"⟩
    [{ filename := "a.png", status := Status.pending }]).2 1 (by decide)

/-- C4: immediately after `start()`'s synchronous setup (`initialResults`),
there is one job per input file, in input order, each Pending with a
non-null preview handle. -/
theorem c4_start_initial_jobs (files : List String) (base : Nat) :
    (initialResults files base).length = files.length ∧
    ∀ i name, files.get? i = some name →
      (initialResults files base).get? i =
        some { filename := name, status := .pending, fileUrl := some (base + i) } := by
  refine ⟨length_initialResults files base, fun i name hi => ?_⟩
  rw [get?_initialResults, hi]
  rfl

/-- C4 witness: two files yield two Pending jobs with previews, in order. -/
theorem c4_start_initial_jobs_witness :
    (initialResults ["a.png", "b.png"] 0).get? 1 =
      some { filename := "b.png", status := .pending, fileUrl := some 1 } :=
  (c4_start_initial_jobs ["a.png", "b.png"] 0).2 1 "b.png" rfl

/-- C8: for an in-range index, `remove(i)` deletes exactly slot `i`
(count drops by one, later jobs shift down, earlier jobs untouched) and
releases exactly that job's preview URL. -/
theorem c8_remove_in_range (st : AppState) (i : Nat) (r : ResultItem)
    (h : st.results.get? i = some r) :
    handleRemoveResult i st =
      some { st with results := st.results.eraseIdx i,
                     released := r.fileUrl.toList ++ st.released } ∧
    (st.results.eraseIdx i).length + 1 = st.results.length ∧
    (∀ k, k < i → (st.results.eraseIdx i).get? k = st.results.get? k) ∧
    (∀ k, i ≤ k → (st.results.eraseIdx i).get? k = st.results.get? (k + 1)) := by
  have hi : i < st.results.length := by
    by_contra hc
    rw [List.get?_len_le (by omega)] at h
    cases h
  refine ⟨?_, length_eraseIdx_add_one _ _ hi,
    fun k hk => get?_eraseIdx_lt _ _ _ hk,
    fun k hk => get?_eraseIdx_ge _ _ _ hi hk⟩
  unfold handleRemoveResult
  rw [h]
  cases hfu : r.fileUrl <;> simp [hfu, Option.toList]

/-- C8 witness: removing the first of two jobs. -/
theorem c8_remove_in_range_witness :
    handleRemoveResult 0
      { results := [{ filename := "a.png", status := Status.pending, fileUrl := some 3 },
                    { filename := "b.png", status := Status.pending, fileUrl := some 4 }],
        nextUrl := 5, released := [], isProcessing := false } =
      some { results := [{ filename := "b.png", status := Status.pending, fileUrl := some 4 }],
             nextUrl := 5, released := [3], isProcessing := false } :=
  (c8_remove_in_range
    { results := [{ filename := "a.png", status := Status.pending, fileUrl := some 3 },
                  { filename := "b.png", status := Status.pending, fileUrl := some 4 }],
      nextUrl := 5, released := [], isProcessing := false } 0
    { filename := "a.png", status := Status.pending, fileUrl := some 3 } rfl).1

/-- C10: `remove(i)` with `i` out of range (in particular on an empty list)
is not a no-op: `prev[index]` is `undefined` and reading its `fileUrl`
throws a `TypeError` (modelled by `none`) before any state change. -/
theorem c10_remove_out_of_range_throws (st : AppState) (i : Nat)
    (h : st.results.length ≤ i) : handleRemoveResult i st = none := by
  unfold handleRemoveResult
  rw [List.get?_len_le h]

/-- C10 witness: removal from an empty job list throws. -/
theorem c10_remove_out_of_range_throws_witness :
    handleRemoveResult 0
      { results := [], nextUrl := 0, released := [], isProcessing := false } = none :=
  c10_remove_out_of_range_throws _ 0 (by decide)

/-- C3 counterexample: a previous job holds the live preview URL 0, yet
`start()` with a new file list releases nothing — `handleStart` never calls
`URL.revokeObjectURL` on the superseded jobs, so URL 0 is leaked, where the
claim requires it to be released before the new Pending jobs take over. -/
theorem c3_counterexample :
    staleApp.results.map ResultItem.fileUrl = [some 0] ∧
    (handleStart envOkAll ProcessingMode.performance ["new.png"] staleApp).1.released = [] ∧
    0 ∉ (handleStart envOkAll ProcessingMode.performance ["new.png"] staleApp).1.released := by
  refine ⟨rfl, by decide, by decide⟩

/-- C3 (amended): a Job's PreviewResource is released exactly when that Job
is removed via `remove(i)` — and only then: `start()` releases nothing, so
superseding a run leaks every previous job's preview URL (the old handles
are dropped without `URL.revokeObjectURL`). -/
theorem c3_release_only_on_remove (env : Env) (mode : ProcessingMode)
    (files : List String) (st : AppState) :
    (handleStart env mode files st).1.released = st.released ∧
    ∀ i r st', st.results.get? i = some r → handleRemoveResult i st = some st' →
      st'.released = r.fileUrl.toList ++ st.released := by
  constructor
  · rfl
  · intro i r st' h hrem
    unfold handleRemoveResult at hrem
    rw [h] at hrem
    cases hrem
    cases hfu : r.fileUrl <;> simp [hfu, Option.toList]

/-- C3 witness: the amended theorem at a concrete state — a superseding
`start()` leaves `released` untouched. -/
theorem c3_release_only_on_remove_witness :
    (handleStart envOkAll ProcessingMode.performance ["new.png"] staleApp).1.released =
      staleApp.released :=
  (c3_release_only_on_remove envOkAll ProcessingMode.performance ["new.png"] staleApp).1

/-- C2 counterexample: job 0's `combinedProcess` response is OK but missing
both `raw_output` and `parsed_data`; the claim says job 0 resolves to
Error with a non-empty message, but the code marks it Success with no
error (the missing fields are stored as `undefined`), and job 1 also
resolves Success. -/
theorem c2_counterexample :
    (handleNormalProcessing envMissingField 2 (initRunState ["a.png", "b.png"] 0)).results.map
        ResultItem.status = [Status.success, Status.success] ∧
    (handleNormalProcessing envMissingField 2 (initRunState ["a.png", "b.png"] 0)).results.map
        ResultItem.error = [none, none] := by
  refine ⟨by decide, by decide⟩

/-- C2 (amended): an OK stage response with missing expected fields never
resolves the job to Error. Under Performance (no cancellation) an OK
`combinedProcess` body — fields present or not — resolves the job to
Success with `error = none`, the absent fields stored as `undefined`
(`none`); every job is still resolved by its own call (subsequent jobs
process normally); and under Low-VRAM and Batch an OK `extract` body,
even with `markdown` missing, still sends the job on to its `parse` call. -/
theorem c2_malformed_ok_field_absent (env : Env) (files : List String) (base : Nat)
    (hna : ∀ i, i < files.length → env.processResult i ≠ .aborted) :
    (∀ j d name, env.processResult j = .ok d → files.get? j = some name →
      (handleNormalProcessing env files.length (initRunState files base)).results.get? j =
        some { filename := name, status := .success, rawMarkdown := d.raw_output,
               parsedJson := d.parsed_data, error := none,
               processingTime := some (env.elapsed j), fileUrl := some (base + j) }) ∧
    (∀ k name, files.get? k = some name →
      (handleNormalProcessing env files.length (initRunState files base)).results.get? k =
        some (resolveNormal env k
          { filename := name, status := .pending, fileUrl := some (base + k) })) ∧
    (∀ j, j < files.length →
      (∀ i, i < files.length → env.extractResult i ≠ .aborted ∧ env.parseResult i ≠ .aborted) →
      isOkExtract env j = true →
      CallEv.parse j ∈
        (handleLowVramProcessing env files.length (initRunState files base)).trace) ∧
    (∀ j, j < files.length →
      (∀ i, i < files.length → env.extractResult i ≠ .aborted) →
      (∀ i, i < files.length → env.parseResult i ≠ .aborted) →
      isOkExtract env j = true →
      CallEv.parse j ∈
        (handleBatchProcessing env files.length (initRunState files base)).trace) := by
  refine ⟨?_, ?_, ?_, ?_⟩
  · intro j d name hj hname
    rw [handleNormal_noAbort_get? env files base hna j name hname]
    simp [resolveNormal, hj]
  · intro k name hname
    exact handleNormal_noAbort_get? env files base hna k name hname
  · intro j hj hno hok
    unfold handleLowVramProcessing
    rw [runLowVramAux_trace env _ _ rfl]
    simp only [initRunState, List.nil_append]
    exact parse_mem_lowVramTrace env _ j (List.mem_range.mpr hj)
      (fun i hi => hno i (List.mem_range.mp hi)) hok
  · intro j hj hne hnp hok
    rw [handleBatchProcessing_noAbort env files base hne hnp]
    simp only
    refine List.mem_append.mpr (Or.inr ?_)
    refine List.mem_cons_of_mem _ ?_
    exact List.mem_map_of_mem _ (List.mem_filter.mpr ⟨List.mem_range.mpr hj, hok⟩)

/-- C2 witness: the amended theorem at the counterexample run — job 0's OK
but field-less body yields Success with absent fields and no error. -/
theorem c2_malformed_ok_field_absent_witness :
    (handleNormalProcessing envMissingField 2 (initRunState ["a.png", "b.png"] 0)).results.get? 0 =
      some { filename := "a.png", status := .success, rawMarkdown := none,
             parsedJson := none, error := none, processingTime := some 7,
             fileUrl := some 0 } :=
  (c2_malformed_ok_field_absent envMissingField ["a.png", "b.png"] 0
    (by decide)).1 0 {} "a.png" rfl rfl

/-- C5: Batch invokes `unload` exactly once per run when Phase 1 was not
cancelled — no matter how many jobs failed Phase 1 — and zero times when
Phase 1 was cancelled, in which case Phase 3 issues no `parse` at all. -/
theorem c5_batch_unload_once (env : Env) (files : List String) (base : Nat) :
    countEv CallEv.unload
      (handleBatchProcessing env files.length (initRunState files base)).trace =
      (if (List.range files.length).any (extractAborts env) then 0 else 1) ∧
    ((List.range files.length).any (extractAborts env) = true →
      ∀ j, CallEv.parse j ∉
        (handleBatchProcessing env files.length (initRunState files base)).trace) := by
  have hflag := runBatchP1_aborted env (List.range files.length) (initRunState files base) [] rfl
  have htr := runBatchP1_trace env (List.range files.length) (initRunState files base) [] rfl
  cases hany : (List.range files.length).any (extractAborts env) with
  | true =>
      rw [hany] at hflag
      refine ⟨?_, ?_⟩
      · unfold handleBatchProcessing
        simp only [hflag, if_true]
        rw [htr]
        simp [countEv_append, countEv_unload_batchP1Trace, countEv, initRunState]
      · intro _ j
        unfold handleBatchProcessing
        simp only [hflag, if_true]
        rw [htr]
        simp [parse_not_mem_batchP1Trace, initRunState]
  | false =>
      rw [hany] at hflag
      refine ⟨?_, fun habs => ?_⟩
      · unfold handleBatchProcessing
        simp only [hflag, Bool.false_eq_true, if_false]
        rw [runBatchP3_trace env _ _ (by simp [hflag]), htr]
        simp [countEv_append, countEv_unload_batchP1Trace, countEv_unload_batchP3Trace,
          countEv, initRunState]
      · exact absurd habs (by simp)

/-- C5 witness: with job 0's `extract` aborted, Phase 1 is cancelled, so no
`parse` call is ever issued in that run. -/
theorem c5_batch_unload_once_witness :
    CallEv.parse 0 ∉
      (handleBatchProcessing envAbort0 (["a.png"] : List String).length
        (initRunState ["a.png"] 0)).trace :=
  (c5_batch_unload_once envAbort0 ["a.png"] 0).2 (by decide) 0

/-- C6: the Low-VRAM run's call trace is exactly the per-job interleaving
`extract i`, then (only when `extract i` resolved OK) `unload` then
`parse i`, before any call for job `i+1`; consequently, when the run is
not cancelled, `unload` is invoked exactly once per job whose `extract`
succeeded and zero times for each job whose `extract` failed. -/
theorem c6_lowvram_unload_interleave (env : Env) (files : List String) (base : Nat) :
    (handleLowVramProcessing env files.length (initRunState files base)).trace =
      lowVramTrace env (List.range files.length) ∧
    ((∀ i, i < files.length → env.extractResult i ≠ .aborted ∧ env.parseResult i ≠ .aborted) →
      countEv CallEv.unload
        (handleLowVramProcessing env files.length (initRunState files base)).trace =
        (List.range files.length).countP (isOkExtract env)) := by
  have htr : (handleLowVramProcessing env files.length (initRunState files base)).trace =
      lowVramTrace env (List.range files.length) := by
    unfold handleLowVramProcessing
    rw [runLowVramAux_trace env _ _ rfl]
    simp [initRunState]
  refine ⟨htr, fun h => ?_⟩
  rw [htr]
  exact countEv_unload_lowVramTrace env _ (fun i hi => h i (List.mem_range.mp hi))

/-- C6 witness: a fully successful two-job run unloads once per job. -/
theorem c6_lowvram_unload_interleave_witness :
    countEv CallEv.unload
      (handleLowVramProcessing envOkAll (["a.png", "b.png"] : List String).length
        (initRunState ["a.png", "b.png"] 0)).trace =
      (List.range (["a.png", "b.png"] : List String).length).countP (isOkExtract envOkAll) :=
  (c6_lowvram_unload_interleave envOkAll ["a.png", "b.png"] 0).2 (by decide)

/-- Environment in which every stage call completes but reports failure
with a server-supplied detail message. -/
def envHttpFail : Env :=
  { envOkAll with
    processResult := fun _ => .httpError (some "boom"),
    extractResult := fun _ => .httpError (some "bad page") }

/-- C9: a stage failure is isolated. Performance (no cancellation): a job
whose `combinedProcess` reports failure ends Error carrying the
server-supplied message, and every job — before or after it — is still
resolved by its own call, so the batch runs to completion even if every
job fails. Batch (no cancellation): the trace always contains all N
`extract` calls, then `unload`, then one `parse` per OK-extract job (a
job failing Phase 1 is only excluded from Phase 3), and a job whose
`extract` reported failure ends Error with the server-supplied message. -/
theorem c9_stage_failure_isolated (env : Env) (files : List String) (base : Nat) :
    ((∀ i, i < files.length → env.processResult i ≠ .aborted) →
      (∀ j det name, env.processResult j = .httpError det → files.get? j = some name →
        (handleNormalProcessing env files.length (initRunState files base)).results.get? j =
          some { filename := name, status := .error,
                 error := some (det.getD "Processing failed"), fileUrl := some (base + j) }) ∧
      (∀ k name, files.get? k = some name →
        (handleNormalProcessing env files.length (initRunState files base)).results.get? k =
          some (resolveNormal env k
            { filename := name, status := .pending, fileUrl := some (base + k) }))) ∧
    ((∀ i, i < files.length → env.extractResult i ≠ .aborted) →
     (∀ i, i < files.length → env.parseResult i ≠ .aborted) →
      (handleBatchProcessing env files.length (initRunState files base)).trace =
        (List.range files.length).map CallEv.extract ++ CallEv.unload ::
          ((List.range files.length).filter (isOkExtract env)).map CallEv.parse ∧
      (∀ j det name, env.extractResult j = .httpError det → files.get? j = some name →
        (handleBatchProcessing env files.length (initRunState files base)).results.get? j =
          some { filename := name, status := .error,
                 error := some (det.getD "OCR failed"), fileUrl := some (base + j) })) := by
  constructor
  · intro hna
    constructor
    · intro j det name hj hname
      rw [handleNormal_noAbort_get? env files base hna j name hname]
      simp [resolveNormal, hj]
    · intro k name hname
      exact handleNormal_noAbort_get? env files base hna k name hname
  · intro hne hnp
    rw [handleBatchProcessing_noAbort env files base hne hnp]
    refine ⟨rfl, ?_⟩
    intro j det name hj hname
    have hjlt : j < files.length := by
      by_contra hc
      rw [List.get?_len_le (by omega)] at hname
      cases hname
    have hnotok : j ∉ (List.range files.length).filter (isOkExtract env) := by
      intro hmem
      have := List.of_mem_filter hmem
      rw [isOkExtract, hj] at this
      cases this
    simp only
    rw [get?_applyResolves_not_mem _ _ _ _ hnotok,
      get?_applyResolves_mem _ _ _ _ (List.nodup_range _) (List.mem_range.mpr hjlt),
      get?_initialResults, hname]
    simp [resolveBatchP1, hj]

/-- C9 witness: with every stage call failing, job 0 under Performance ends
Error with the server's message and the run still resolved it. -/
theorem c9_stage_failure_isolated_witness :
    (handleNormalProcessing envHttpFail (["a.png"] : List String).length
      (initRunState ["a.png"] 0)).results.get? 0 =
      some { filename := "a.png", status := .error, error := some "boom",
             fileUrl := some 0 } :=
  ((c9_stage_failure_isolated envHttpFail ["a.png"] 0).1 (by decide)).1
    0 (some "boom") "a.png" rfl rfl

/-- C7: `handleStop` leaves no job Processing; under every policy, a run's
final job list contains no Processing job, and the job whose in-flight
call consumed the cancellation ends Pending (never Error); and the
Performance loop's late `AbortError` write is a no-op — dropping the
handler (`handlerOn := false`) yields the identical run, so the aborted
response mutates no job state beyond what `handleStop` already did. -/
theorem c7_stop_cancellation_safety (env : Env) (mode : ProcessingMode)
    (files : List String) (base : Nat) (rs : List ResultItem)
    (l : List Nat) (s : RunState) :
    noProcessing (applyStop rs) ∧
    noProcessing (runPolicy env mode files.length (initRunState files base)).results ∧
    (∀ j r, (runPolicy env mode files.length (initRunState files base)).abortedJob = some j →
      (runPolicy env mode files.length (initRunState files base)).results.get? j = some r →
      r.status = .pending) ∧
    runNormalAux env true l s = runNormalAux env false l s := by
  have hinv : noProcessing (runPolicy env mode files.length (initRunState files base)).results ∧
      ∀ j r, (runPolicy env mode files.length (initRunState files base)).abortedJob = some j →
        (runPolicy env mode files.length (initRunState files base)).results.get? j = some r →
        r.status = .pending := by
    cases mode with
    | performance =>
        simp only [runPolicy, handleNormalProcessing]
        exact runNormalAux_inv env true (List.range files.length) (initRunState files base)
          (noProcessing_initialResults files base) rfl rfl
    | lowvram =>
        simp only [runPolicy, handleLowVramProcessing]
        exact runLowVramAux_inv env (List.range files.length) (initRunState files base)
          (noProcessing_initialResults files base) rfl rfl
    | batch =>
        have hp1 := runBatchP1_inv env (List.range files.length) (initRunState files base) []
          (noProcessing_initialResults files base) rfl rfl
        simp only [runPolicy]
        unfold handleBatchProcessing
        by_cases hflag :
            (runBatchP1 env (List.range files.length) (initRunState files base) []).1.aborted = true
        · simp only [hflag, if_true]
          exact ⟨hp1.1, hp1.2.1⟩
        · rw [Bool.not_eq_true] at hflag
          simp only [hflag, Bool.false_eq_true, if_false]
          exact runBatchP3_inv env _ _ hp1.1 rfl (hp1.2.2 hflag)
  exact ⟨noProcessing_applyStop rs, hinv.1, hinv.2, runNormalAux_handler env l s⟩

/-- C7 witness: `stop()` during job 0's call under Performance leaves job 0
Pending. -/
theorem c7_stop_cancellation_safety_witness :
    ({ filename := "a.png", status := Status.pending, fileUrl := some 0 } : ResultItem).status =
      Status.pending :=
  (c7_stop_cancellation_safety envAbort0 ProcessingMode.performance ["a.png"] 0 [] []
    { results := [], trace := [], aborted := false, abortedJob := none }).2.2.1 0
    { filename := "a.png", status := Status.pending, fileUrl := some 0 }
    (by decide) (by decide)
